import Mathlib

/-!
Shallow embedding of the A*-style path finder in `src/main.cpp` and proofs of
the specification's claims about it.

Modelling conventions:
* `float` values are modelled by dyadic rationals `num / 2 ^ exp` (`Dyadic`
  below): every IEEE single-precision value is of this form, and every float
  the Manhattan search manipulates is a small integer (distances, terrain
  costs) or `FLT_EPSILON` (exactly `2 ^ (-23)`), whose additions and
  comparisons are exact in single precision.  The Euclidean branch calls
  `sqrtf`/`powf` and is genuinely floating-point; it is not embedded (see the
  development notes next to `FindPath`).
* `std::vector` indexing is modelled by list lookup that returns `none` when
  the index is out of range; C++ undefined behaviour on such an access is
  mapped to the `none` outcome of the whole computation.
* Unbounded `while` loops are modelled with an explicit fuel parameter;
  running out of fuel also yields `none`.
-/

namespace Sunshine

/-- Dyadic rationals `num / 2 ^ exp`, the exact value space containing all
IEEE single-precision floats.  The float operations the embedded search
performs (additions and order comparisons of small integer-valued scores and
of `FLT_EPSILON`) are exact on these values, and — unlike `ℚ`, whose
normalisation calls the well-founded `Nat.gcd` — all operations reduce inside
the Lean kernel, so concrete runs of the search can be evaluated by `decide`. -/
structure Dyadic where
  num : Int
  exp : Nat
deriving DecidableEq

namespace Dyadic

/-- Exact addition: `a.num / 2 ^ a.exp + b.num / 2 ^ b.exp`. -/
def add (a b : Dyadic) : Dyadic :=
  ⟨a.num * 2 ^ b.exp + b.num * 2 ^ a.exp, a.exp + b.exp⟩

instance : Add Dyadic := ⟨Dyadic.add⟩

/-- Exact order by cross multiplication (the denominators `2 ^ exp` are
positive). -/
def lt (a b : Dyadic) : Prop := a.num * 2 ^ b.exp < b.num * 2 ^ a.exp

def le (a b : Dyadic) : Prop := a.num * 2 ^ b.exp ≤ b.num * 2 ^ a.exp

instance : LT Dyadic := ⟨Dyadic.lt⟩

instance : LE Dyadic := ⟨Dyadic.le⟩

instance (a b : Dyadic) : Decidable (a < b) :=
  inferInstanceAs (Decidable (a.num * 2 ^ b.exp < b.num * 2 ^ a.exp))

instance (a b : Dyadic) : Decidable (a ≤ b) :=
  inferInstanceAs (Decidable (a.num * 2 ^ b.exp ≤ b.num * 2 ^ a.exp))

/-- An integer-valued float. -/
def ofInt (n : Int) : Dyadic := ⟨n, 0⟩

instance (n : Nat) : OfNat Dyadic n := ⟨⟨Int.ofNat n, 0⟩⟩

/-- The value of a dyadic as a rational, used only inside proofs. -/
def toRat (a : Dyadic) : ℚ := (a.num : ℚ) / 2 ^ a.exp

theorem toRat_lt {a b : Dyadic} : a < b ↔ a.toRat < b.toRat := by
  show a.num * 2 ^ b.exp < b.num * 2 ^ a.exp ↔ _
  rw [toRat, toRat, div_lt_div_iff₀ (by positivity) (by positivity)]
  constructor
  · intro h
    exact_mod_cast h
  · intro h
    exact_mod_cast h

theorem toRat_le {a b : Dyadic} : a ≤ b ↔ a.toRat ≤ b.toRat := by
  show a.num * 2 ^ b.exp ≤ b.num * 2 ^ a.exp ↔ _
  rw [toRat, toRat, div_le_div_iff₀ (by positivity) (by positivity)]
  constructor
  · intro h
    exact_mod_cast h
  · intro h
    exact_mod_cast h

theorem le_of_lt {a b : Dyadic} (h : a < b) : a ≤ b := by
  rw [toRat_le]
  rw [toRat_lt] at h
  exact h.le

theorem le_of_not_lt {a b : Dyadic} (h : ¬ b < a) : a ≤ b := by
  rw [toRat_le]
  rw [toRat_lt] at h
  exact not_lt.mp h

theorem le_trans {a b c : Dyadic} (h₁ : a ≤ b) (h₂ : b ≤ c) : a ≤ c := by
  rw [toRat_le] at h₁ h₂ ⊢
  exact h₁.trans h₂

theorem le_refl (a : Dyadic) : a ≤ a := by
  rw [toRat_le]

end Dyadic

/-- `TILE_COUNT` from `src/main.cpp` (`#define TILE_COUNT 10`). -/
def TILE_COUNT : Int := 10

/-- Number of graph nodes, `const int nodeCount = TILE_COUNT * TILE_COUNT`. -/
def nodeCount : Nat := 100

/-- `struct Cell { int col = -1; int row = -1; }`. -/
structure Cell where
  col : Int
  row : Int
deriving DecidableEq

/-- The default-constructed `Cell`, i.e. `{ -1, -1 }`. -/
def cellDefault : Cell := ⟨-1, -1⟩

/-- A cell lies on the 10×10 grid. -/
def InBounds (c : Cell) : Prop :=
  0 ≤ c.col ∧ c.col < TILE_COUNT ∧ 0 ≤ c.row ∧ c.row < TILE_COUNT

instance (c : Cell) : Decidable (InBounds c) := by
  unfold InBounds; infer_instance

/-- `float Manhattan(Cell a, Cell b)`: `abs(b.col - a.col) + abs(b.row - a.row)`,
an integer sum converted to `float` on return (exactly, the values being
small). -/
def Manhattan (a b : Cell) : Dyadic :=
  Dyadic.ofInt ((b.col - a.col).natAbs + (b.row - a.row).natAbs)

/-- `size_t Index(Cell cell)`: `cell.row * TILE_COUNT + cell.col`, kept as an
integer; a negative value converts in C++ to a huge `size_t`, hence is always
out of range for the 100-element vectors. -/
def Index (c : Cell) : Int := c.row * TILE_COUNT + c.col

/-- The static cost table of `float Cost(TileType type)`:
`{0, 10, 25, 50, 100}` for `AIR, GRASS, WATER, MUD, MOUNTAIN`. -/
def costTable : List Dyadic := [0, 10, 25, 50, 100]

/-- `float Cost(TileType type)`, a lookup in the static table. -/
def Cost (t : Nat) : Dyadic := costTable.getD t 0

/-- The grid, `array<array<size_t, TILE_COUNT>, TILE_COUNT>`, abstracted as the
function the search reads through `map[cell.row][cell.col]` (only ever applied
to in-bounds cells). -/
def Map : Type := Cell → Nat

/-- The all-`AIR` (cost-0) grid used by several test scenarios of the spec. -/
def airMap : Map := fun _ => 0

/-- The offset pairs `(row, col)` enumerated by the two nested `for` loops of
`Neighbours`, outer `row = -1..1`, inner `col = -1..1`, in order. -/
def offsetPairs : List (Int × Int) :=
  [(-1, -1), (-1, 0), (-1, 1), (0, -1), (0, 0), (0, 1), (1, -1), (1, 0), (1, 1)]

/-- One turn of the inner loop body of `Neighbours`: the `continue` guard is
transcribed exactly as written in the source — it compares the loop offsets
`row = o.1`/`col = o.2` against the *absolute coordinates*
`cell.row`/`cell.col` — followed by the bounds filter and `push_back`. -/
def neighStep (cell : Cell) (o : Int × Int) (acc : List Cell) : List Cell :=
  if o.1 = cell.row ∧ o.2 = cell.col then acc
  else
    if 0 ≤ cell.col + o.2 ∧ cell.col + o.2 < TILE_COUNT ∧
        0 ≤ cell.row + o.1 ∧ cell.row + o.1 < TILE_COUNT then
      (⟨cell.col + o.2, cell.row + o.1⟩ : Cell) :: acc
    else acc

/-- `vector<Cell> Neighbours(Cell cell)` from `src/main.cpp`: the two nested
offset loops, folded in source order. -/
def Neighbours (cell : Cell) : List Cell :=
  offsetPairs.foldr (neighStep cell) []

/-- `struct Node` with its two `float` scores, its cell and its parent. -/
structure Node where
  g : Dyadic
  h : Dyadic
  cell : Cell
  parent : Cell
deriving DecidableEq

/-- The default-constructed `Node`: `Init()` gives `g = h = 0` and
`cell = parent = { -1, -1 }`. -/
def initNode : Node := ⟨0, 0, cellDefault, cellDefault⟩

/-- `float F() { return g + h; }` -/
def Node.F (n : Node) : Dyadic := n.g + n.h

/-- `FLT_EPSILON`, exactly `2 ^ (-23)` in single precision. -/
def FLT_EPSILON : Dyadic := ⟨1, 23⟩

/-- Read `l[Index c]` from a modelled `std::vector`; out-of-range access (C++
undefined behaviour) yields `none`. -/
def getV {α : Type} (l : List α) (c : Cell) : Option α :=
  if 0 ≤ Index c then l.get? (Index c).toNat else none

/-- Write `l[Index c] = v`; out-of-range access yields `none`. -/
def setV {α : Type} (l : List α) (c : Cell) (v : α) : Option (List α) :=
  if 0 ≤ Index c ∧ (Index c).toNat < l.length then
    some (l.set (Index c).toNat v)
  else none

/-- The mutable state of one `FindPath` call: the per-cell node table, the
closed list and the open list. -/
structure SearchState where
  tileNodes : List Node
  closedList : List Bool
  openList : List Node
deriving DecidableEq

/-- Modelled from the spec: the source's frontier is a `std::priority_queue`
with the reversed comparator `Compare` (so `top` is an entry of minimal `F`),
but the queue's internals are not part of this repository and §9 of the spec
leaves the tie order "unspecified/arbitrary".  Following the spec's suggested
deterministic tie-break, this model selects the earliest-pushed entry among
those of minimal `F`.  `selectMin x ys` returns that entry together with the
remaining entries of `x :: ys` in their original order. -/
def selectMin (x : Node) : List Node → Node × List Node
  | [] => (x, [])
  | y :: ys =>
    if y.F < x.F then
      let p := selectMin y ys
      (p.1, x :: p.2)
    else
      let p := selectMin x ys
      (p.1, y :: p.2)

/-- `top`/`pop` of the modelled frontier: `none` iff the open list is empty. -/
def popMin : List Node → Option (Node × List Node)
  | [] => none
  | x :: xs => some (selectMin x xs)

/-- The body of the `for (const Cell& neighbour : Neighbours(currentCell))`
loop: skip closed neighbours, compute `gNew`/`hNew`, and on
`F() <= FLT_EPSILON` (unexplored) or a strictly better score push the
neighbour and overwrite its node with `{neighbour, currentCell, gNew, hNew}`.
The pushed open entry `{neighbour, gNew, hNew}` has a default parent. -/
def relax (dist : Cell → Cell → Dyadic) (map : Map) (goal cur : Cell)
    (st : SearchState) (n : Cell) : Option SearchState :=
  match getV st.closedList n with
  | none => none
  | some true => some st
  | some false =>
    match getV st.tileNodes n with
    | none => none
    | some nd =>
      if nd.F ≤ FLT_EPSILON ∨ dist cur n + (dist n goal + Cost (map n)) < nd.F then
        match setV st.tileNodes n
            (Node.mk (dist cur n) (dist n goal + Cost (map n)) n cur) with
        | none => none
        | some nodes' =>
          some ⟨nodes', st.closedList,
            st.openList ++ [Node.mk (dist cur n) (dist n goal + Cost (map n)) n cellDefault]⟩
      else some st

/-- Run `relax` over the whole neighbour list, in source order. -/
def relaxList (dist : Cell → Cell → Dyadic) (map : Map) (goal cur : Cell) :
    List Cell → SearchState → Option SearchState
  | [], st => some st
  | n :: ns, st =>
    match relax dist map goal cur st n with
    | none => none
    | some st' => relaxList dist map goal cur ns st'

/-- One iteration of the `while (!openList.empty())` loop.
`Sum.inr st` means the loop exits (empty open list, or the peeked minimal
entry is the goal — in which case nothing is popped or closed); `Sum.inl st'`
means the loop continues with the popped cell closed and its neighbours
relaxed. -/
def loopStep (dist : Cell → Cell → Dyadic) (map : Map) (goal : Cell)
    (st : SearchState) : Option (SearchState ⊕ SearchState) :=
  match popMin st.openList with
  | none => some (Sum.inr st)
  | some (cur, rest) =>
    if cur.cell = goal then some (Sum.inr st)
    else
      match setV st.closedList cur.cell true with
      | none => none
      | some cls =>
        match relaxList dist map goal cur.cell (Neighbours cur.cell)
            ⟨st.tileNodes, cls, rest⟩ with
        | none => none
        | some st2 => some (Sum.inl st2)

/-- The search loop, driven by fuel. -/
def loop (dist : Cell → Cell → Dyadic) (map : Map) (goal : Cell) :
    Nat → SearchState → Option SearchState
  | 0, _ => none
  | fuel + 1, st =>
    match loopStep dist map goal st with
    | none => none
    | some (Sum.inr st') => some st'
    | some (Sum.inl st') => loop dist map goal fuel st'

/-- The state set up before the loop: fresh node and closed tables,
`tileNodes[Index(start)].parent = start`, and `openList.push(start)`
(the pushed `Node(start)` has `g = h = 0` and a default parent). -/
def initState (start : Cell) : Option SearchState :=
  let nodes0 := List.replicate nodeCount initNode
  match getV nodes0 start with
  | none => none
  | some nd =>
    match setV nodes0 start { nd with parent := start } with
    | none => none
    | some nodes1 =>
      some ⟨nodes1, List.replicate nodeCount false, [Node.mk 0 0 start cellDefault]⟩

/-- The reconstruction loop after the search, transcribed from the source:
starting at `end`, while `tileNodes[currentIndex].parent != currentCell` push
the current cell and move to its parent; then push `start` and reverse.
`path` is the accumulator vector. -/
def reconstruct (nodes : List Node) (start : Cell) :
    Nat → Cell → List Cell → Option (List Cell)
  | 0, _, _ => none
  | fuel + 1, current, path =>
    match getV nodes current with
    | none => none
    | some nd =>
      if nd.parent = current then some (List.reverse (path ++ [start]))
      else reconstruct nodes start fuel nd.parent (path ++ [current])

/-- `vector<Cell> FindPath(Cell start, Cell end, Map map, bool manhattan)`.
The `manhattan` flag of the source selects between `Manhattan` and
`Euclidean`; the distance function is a parameter here, and the claims about
concrete runs instantiate it with `Manhattan` (the `Euclidean` branch computes
with single-precision `sqrtf` and is not embedded). -/
def FindPath (dist : Cell → Cell → Dyadic) (start goal : Cell) (map : Map)
    (fuel : Nat) : Option (List Cell) :=
  match initState start with
  | none => none
  | some st0 =>
    match loop dist map goal fuel st0 with
    | none => none
    | some st => reconstruct st.tileNodes start fuel goal []

/-- Modelled from the spec (§4.5 Path Reconstructor): "Starting at `goal`,
repeatedly append the current cell and follow `parent` until a cell whose
`parent` equals itself is reached"; the walk below returns that appended
sequence (goal first).  §4.5's final "append start; reverse" step is applied
by the refinement theorem for claim C8. -/
def specWalk (nodes : List Node) : Nat → Cell → Option (List Cell)
  | 0, _ => none
  | fuel + 1, current =>
    match getV nodes current with
    | none => none
    | some nd =>
      if nd.parent = current then some []
      else
        match specWalk nodes fuel nd.parent with
        | none => none
        | some rest => some (current :: rest)

/-- Two cells differ by one of the 8 adjacency offsets: both coordinate
deltas lie in `{-1, 0, 1}` and the cells are distinct. -/
def Adjacent8 (a b : Cell) : Prop :=
  (b.col - a.col = -1 ∨ b.col - a.col = 0 ∨ b.col - a.col = 1) ∧
  (b.row - a.row = -1 ∨ b.row - a.row = 0 ∨ b.row - a.row = 1) ∧
  b ≠ a

instance (a b : Cell) : Decidable (Adjacent8 a b) := by
  unfold Adjacent8; infer_instance

/-! ### Basic facts about indexing and the modelled vectors -/

theorem index_nonneg_of_inBounds {c : Cell} (h : InBounds c) : 0 ≤ Index c := by
  rcases h with ⟨h1, h2, h3, h4⟩
  unfold Index TILE_COUNT at *
  omega

theorem index_toNat_lt_of_inBounds {c : Cell} (h : InBounds c) :
    (Index c).toNat < nodeCount := by
  rcases h with ⟨h1, h2, h3, h4⟩
  unfold Index TILE_COUNT at *
  unfold nodeCount
  omega

theorem index_inj {a b : Cell} (ha : InBounds a) (hb : InBounds b)
    (h : Index a = Index b) : a = b := by
  obtain ⟨ac, ar⟩ := a
  obtain ⟨bc, br⟩ := b
  obtain ⟨ha1, ha2, ha3, ha4⟩ := ha
  obtain ⟨hb1, hb2, hb3, hb4⟩ := hb
  simp only [Index, TILE_COUNT] at *
  simp only [Cell.mk.injEq]
  omega

theorem list_get?_set_self {α : Type} :
    ∀ (l : List α) (i : Nat) (v : α), i < l.length → (l.set i v).get? i = some v := by
  intro l
  induction l with
  | nil => intro i v h; simp at h
  | cons a l ih =>
    intro i v h
    cases i with
    | zero => rfl
    | succ j =>
      simp only [List.set, List.get?]
      exact ih j v (by simpa using h)

theorem list_get?_set_ne {α : Type} :
    ∀ (l : List α) (i j : Nat) (v : α), i ≠ j → (l.set i v).get? j = l.get? j := by
  intro l
  induction l with
  | nil => intro i j v _; simp [List.set]
  | cons a l ih =>
    intro i j v hij
    cases i with
    | zero =>
      cases j with
      | zero => exact absurd rfl hij
      | succ k => rfl
    | succ i' =>
      cases j with
      | zero => rfl
      | succ k =>
        simp only [List.set, List.get?]
        exact ih i' k v (by omega)

theorem list_get?_replicate {α : Type} (a : α) :
    ∀ (n i : Nat), i < n → (List.replicate n a).get? i = some a := by
  intro n
  induction n with
  | zero => intro i h; omega
  | succ m ih =>
    intro i h
    cases i with
    | zero => rfl
    | succ j =>
      simp only [List.replicate, List.get?]
      exact ih j (by omega)

theorem list_get?_lt {α : Type} :
    ∀ (l : List α) (i : Nat), i < l.length → ∃ a, l.get? i = some a := by
  intro l
  induction l with
  | nil => intro i h; simp at h
  | cons a l ih =>
    intro i h
    cases i with
    | zero => exact ⟨a, rfl⟩
    | succ j => exact ih j (by simpa using h)

theorem getV_some {α : Type} {l : List α} {c : Cell}
    (hlen : l.length = nodeCount) (hc : InBounds c) : ∃ v, getV l c = some v := by
  unfold getV
  rw [if_pos (index_nonneg_of_inBounds hc)]
  exact list_get?_lt l _ (by rw [hlen]; exact index_toNat_lt_of_inBounds hc)

theorem setV_some {α : Type} {l : List α} {c : Cell} (v : α)
    (hlen : l.length = nodeCount) (hc : InBounds c) : ∃ l', setV l c v = some l' := by
  unfold setV
  rw [if_pos ⟨index_nonneg_of_inBounds hc, by rw [hlen]; exact index_toNat_lt_of_inBounds hc⟩]
  exact ⟨_, rfl⟩

theorem setV_length {α : Type} {l l' : List α} {c : Cell} {v : α}
    (h : setV l c v = some l') : l'.length = l.length := by
  unfold setV at h
  split at h
  · cases h
    exact List.length_set ..
  · cases h

theorem getV_setV_self {α : Type} {l l' : List α} {c : Cell} {v : α}
    (h : setV l c v = some l') : getV l' c = some v := by
  unfold setV at h
  split at h
  next hin =>
    cases h
    unfold getV
    rw [if_pos hin.1]
    exact list_get?_set_self _ _ _ hin.2
  next => cases h

theorem getV_setV_ne {α : Type} {l l' : List α} {c c' : Cell} {v : α}
    (h : setV l c v = some l') (hne : Index c ≠ Index c') : getV l' c' = getV l c' := by
  unfold setV at h
  split at h
  next hin =>
    cases h
    unfold getV
    split
    next hpos =>
      refine list_get?_set_ne _ _ _ _ ?_
      intro htn
      apply hne
      omega
    next => rfl
  next => cases h

theorem getV_replicate {α : Type} (a : α) {c : Cell} (hc : InBounds c) :
    getV (List.replicate nodeCount a) c = some a := by
  unfold getV
  rw [if_pos (index_nonneg_of_inBounds hc)]
  exact list_get?_replicate a _ _ (index_toNat_lt_of_inBounds hc)

/-! ### Facts about `Neighbours` -/

theorem mem_neighFold {cell : Cell} :
    ∀ (os : List (Int × Int)) (acc : List Cell) (x : Cell),
      x ∈ os.foldr (neighStep cell) acc →
      x ∈ acc ∨ ∃ o, o ∈ os ∧ x = ⟨cell.col + o.2, cell.row + o.1⟩ ∧ InBounds x := by
  intro os
  induction os with
  | nil => intro acc x hx; exact Or.inl hx
  | cons o os ih =>
    intro acc x hx
    simp only [List.foldr] at hx
    unfold neighStep at hx
    split at hx
    · rcases ih acc x hx with h | ⟨o', ho', rest⟩
      · exact Or.inl h
      · exact Or.inr ⟨o', List.mem_cons_of_mem _ ho', rest⟩
    · split at hx
      next hbnd =>
        rcases List.mem_cons.mp hx with rfl | hx'
        · exact Or.inr ⟨o, List.mem_cons_self .., rfl, hbnd⟩
        · rcases ih acc x hx' with h | ⟨o', ho', rest⟩
          · exact Or.inl h
          · exact Or.inr ⟨o', List.mem_cons_of_mem _ ho', rest⟩
      next =>
        rcases ih acc x hx with h | ⟨o', ho', rest⟩
        · exact Or.inl h
        · exact Or.inr ⟨o', List.mem_cons_of_mem _ ho', rest⟩

/-- Every cell produced by `Neighbours` is in bounds and differs from the
input cell by offsets in `{-1, 0, 1}` in each coordinate (possibly both zero:
because of the transcribed guard, the input cell itself can appear). -/
theorem mem_neighbours {cell x : Cell} (hx : x ∈ Neighbours cell) :
    InBounds x ∧
      (x.col - cell.col = -1 ∨ x.col - cell.col = 0 ∨ x.col - cell.col = 1) ∧
      (x.row - cell.row = -1 ∨ x.row - cell.row = 0 ∨ x.row - cell.row = 1) := by
  rcases mem_neighFold offsetPairs [] x hx with h | ⟨o, ho, hxeq, hbnd⟩
  · simp at h
  · refine ⟨hbnd, ?_, ?_⟩
    · subst hxeq
      simp only [offsetPairs, List.mem_cons, List.not_mem_nil, or_false] at ho
      rcases ho with rfl | rfl | rfl | rfl | rfl | rfl | rfl | rfl | rfl <;> simp
    · subst hxeq
      simp only [offsetPairs, List.mem_cons, List.not_mem_nil, or_false] at ho
      rcases ho with rfl | rfl | rfl | rfl | rfl | rfl | rfl | rfl | rfl <;> simp

/-! ### Facts about the modelled frontier -/

theorem selectMin_fst_le (x : Node) :
    ∀ ys : List Node, (selectMin x ys).1.F ≤ x.F ∧
      ∀ z ∈ ys, (selectMin x ys).1.F ≤ z.F := by
  intro ys
  induction ys generalizing x with
  | nil => exact ⟨Dyadic.le_refl _, by intro z hz; simp at hz⟩
  | cons y ys ih =>
    unfold selectMin
    split
    next hlt =>
      obtain ⟨h1, h2⟩ := ih y
      refine ⟨Dyadic.le_trans h1 (Dyadic.le_of_lt hlt), ?_⟩
      intro z hz
      rcases List.mem_cons.mp hz with rfl | hz'
      · exact h1
      · exact h2 z hz'
    next hlt =>
      obtain ⟨h1, h2⟩ := ih x
      refine ⟨h1, ?_⟩
      intro z hz
      rcases List.mem_cons.mp hz with rfl | hz'
      · exact Dyadic.le_trans h1 (Dyadic.le_of_not_lt hlt)
      · exact h2 z hz'

theorem selectMin_fst_mem (x : Node) :
    ∀ ys : List Node, (selectMin x ys).1 = x ∨ (selectMin x ys).1 ∈ ys := by
  intro ys
  induction ys generalizing x with
  | nil => exact Or.inl rfl
  | cons y ys ih =>
    unfold selectMin
    split
    · rcases ih y with h | h
      · exact Or.inr (by simp [h])
      · exact Or.inr (List.mem_cons_of_mem _ h)
    · rcases ih x with h | h
      · exact Or.inl h
      · exact Or.inr (List.mem_cons_of_mem _ h)

theorem selectMin_snd_subset (x : Node) :
    ∀ ys : List Node, ∀ z ∈ (selectMin x ys).2, z = x ∨ z ∈ ys := by
  intro ys
  induction ys generalizing x with
  | nil => intro z hz; simp [selectMin] at hz
  | cons y ys ih =>
    intro z hz
    unfold selectMin at hz
    split at hz
    · rcases List.mem_cons.mp hz with rfl | hz'
      · exact Or.inl rfl
      · rcases ih y z hz' with h | h
        · exact Or.inr (by simp [h])
        · exact Or.inr (List.mem_cons_of_mem _ h)
    · rcases List.mem_cons.mp hz with rfl | hz'
      · exact Or.inr (List.mem_cons_self ..)
      · rcases ih x z hz' with h | h
        · exact Or.inl h
        · exact Or.inr (List.mem_cons_of_mem _ h)

theorem popMin_none_iff (l : List Node) : popMin l = none ↔ l = [] := by
  cases l with
  | nil => simp [popMin]
  | cons x xs => simp [popMin]

theorem popMin_fst_mem {l : List Node} {cur : Node} {rest : List Node}
    (h : popMin l = some (cur, rest)) : cur ∈ l := by
  cases l with
  | nil => cases h
  | cons x xs =>
    simp only [popMin, Option.some.injEq] at h
    have hfst : (selectMin x xs).1 = cur := by rw [h]
    rcases selectMin_fst_mem x xs with hm | hm
    · rw [hfst] at hm
      rw [← hm]
      exact List.mem_cons_self ..
    · rw [hfst] at hm
      exact List.mem_cons_of_mem _ hm

theorem popMin_fst_min {l : List Node} {cur : Node} {rest : List Node}
    (h : popMin l = some (cur, rest)) : ∀ z ∈ l, cur.F ≤ z.F := by
  cases l with
  | nil => cases h
  | cons x xs =>
    simp only [popMin, Option.some.injEq] at h
    have hfst : (selectMin x xs).1 = cur := by rw [h]
    obtain ⟨h1, h2⟩ := selectMin_fst_le x xs
    rw [hfst] at h1 h2
    intro z hz
    rcases List.mem_cons.mp hz with rfl | hz'
    · exact h1
    · exact h2 z hz'

theorem popMin_rest_subset {l : List Node} {cur : Node} {rest : List Node}
    (h : popMin l = some (cur, rest)) : ∀ z ∈ rest, z ∈ l := by
  cases l with
  | nil => cases h
  | cons x xs =>
    simp only [popMin, Option.some.injEq] at h
    have hsnd : (selectMin x xs).2 = rest := by rw [h]
    intro z hz
    rw [← hsnd] at hz
    rcases selectMin_snd_subset x xs z hz with rfl | hm
    · exact List.mem_cons_self ..
    · exact List.mem_cons_of_mem _ hm

/-! ### The search-loop invariant -/

theorem getV_index_congr {α : Type} (l : List α) {a b : Cell}
    (h : Index a = Index b) : getV l a = getV l b := by
  unfold getV
  rw [h]

/-- The entry of cell `c` in the node table has been overwritten by a
relaxation (every relaxation writes a node carrying an in-bounds `cell`
field, so the written entry always differs from the default node). -/
def WrittenAt (st : SearchState) (c : Cell) : Prop :=
  ∃ nd, getV st.tileNodes c = some nd ∧ nd ≠ initNode

/-- Cell `c` is marked in the closed list. -/
def ClosedAt (st : SearchState) (c : Cell) : Prop :=
  getV st.closedList c = some true

/-- The invariant maintained by every iteration of the search loop after the
first (which closes the start cell before any relaxation happens).

The existential `rank` certifies that the recorded parent pointers are
acyclic: every relaxation writes a parent that is already closed, closed
cells are never rewritten, and a not-yet-closed cell is nobody's recorded
parent, so a rank strictly decreasing along parent links can be maintained. -/
structure Inv (start : Cell) (st : SearchState) : Prop where
  startIn : InBounds start
  lenN : st.tileNodes.length = nodeCount
  lenC : st.closedList.length = nodeCount
  closedStart : ClosedAt st start
  sentinel : ∃ nd, getV st.tileNodes start = some nd ∧ nd.parent = start
  openIn : ∀ nd ∈ st.openList, InBounds nd.cell
  openW : ∀ nd ∈ st.openList, nd.cell = start ∨ WrittenAt st nd.cell
  closedW : ∀ c, InBounds c → ClosedAt st c → c = start ∨ WrittenAt st c
  written : ∀ c, InBounds c → c ≠ start →
    ∀ nd, getV st.tileNodes c = some nd → nd ≠ initNode →
      nd.cell = c ∧ InBounds nd.parent ∧ Adjacent8 nd.parent c ∧
        ClosedAt st nd.parent ∧ (nd.parent = start ∨ WrittenAt st nd.parent)
  rankEx : ∃ rank : Cell → Nat, ∀ c, InBounds c → c ≠ start →
    ∀ nd, getV st.tileNodes c = some nd → nd ≠ initNode → rank nd.parent < rank c

/-- Exhaustive description of the outcomes of one `relax` call. -/
theorem relax_eq_cases {dist : Cell → Cell → Dyadic} {map : Map}
    {goal cur n : Cell} {st st' : SearchState}
    (h : relax dist map goal cur st n = some st') :
    (getV st.closedList n = some true ∧ st' = st) ∨
    (∃ nd, getV st.closedList n = some false ∧ getV st.tileNodes n = some nd ∧
      ¬(nd.F ≤ FLT_EPSILON ∨ dist cur n + (dist n goal + Cost (map n)) < nd.F) ∧
      st' = st) ∨
    (∃ nd nodes', getV st.closedList n = some false ∧
      getV st.tileNodes n = some nd ∧
      (nd.F ≤ FLT_EPSILON ∨ dist cur n + (dist n goal + Cost (map n)) < nd.F) ∧
      setV st.tileNodes n
        (Node.mk (dist cur n) (dist n goal + Cost (map n)) n cur) = some nodes' ∧
      st' = ⟨nodes', st.closedList,
        st.openList ++
          [Node.mk (dist cur n) (dist n goal + Cost (map n)) n cellDefault]⟩) := by
  unfold relax at h
  split at h
  · cases h
  next hcl =>
    cases h
    exact Or.inl ⟨hcl, rfl⟩
  next hcl =>
    split at h
    · cases h
    next nd hnd =>
      split at h
      next hcond =>
        split at h
        · cases h
        next nodes' hset =>
          cases h
          exact Or.inr (Or.inr ⟨nd, nodes', hcl, hnd, hcond, hset, rfl⟩)
      next hcond =>
        cases h
        exact Or.inr (Or.inl ⟨nd, hcl, hnd, hcond, rfl⟩)

/-- A freshly written node is distinguishable from the default node by its
in-bounds `cell` field. -/
theorem writtenNode_ne_init {g h : Dyadic} {n p : Cell} (hn : InBounds n) :
    Node.mk g h n p ≠ initNode := by
  intro heq
  have hcell : n = cellDefault := congrArg Node.cell heq
  have hcol : n.col = -1 := by rw [hcell]; rfl
  rcases hn with ⟨h1, _⟩
  omega

/-- `relax` preserves the invariant.  The neighbour comes from `Neighbours`,
hence is in bounds and offset from `cur` by at most one in each coordinate;
`cur` must already be closed (the loop closes it before relaxing). -/
theorem relax_pres {start : Cell} {dist : Cell → Cell → Dyadic} {map : Map}
    {goal cur n : Cell} {st st' : SearchState}
    (inv : Inv start st) (hcurIn : InBounds cur) (hcurCl : ClosedAt st cur)
    (hn : InBounds n)
    (hdc : n.col - cur.col = -1 ∨ n.col - cur.col = 0 ∨ n.col - cur.col = 1)
    (hdr : n.row - cur.row = -1 ∨ n.row - cur.row = 0 ∨ n.row - cur.row = 1)
    (h : relax dist map goal cur st n = some st') :
    Inv start st' ∧ st'.closedList = st.closedList := by
  rcases relax_eq_cases h with ⟨_, rfl⟩ | ⟨nd, _, _, _, rfl⟩ |
    ⟨nd, nodes', hcl, hnd, hcond, hset, rfl⟩
  · exact ⟨inv, rfl⟩
  · exact ⟨inv, rfl⟩
  · -- the write case
    refine ⟨?_, rfl⟩
    -- the neighbour is not closed, hence distinct from every closed cell
    have hnotcl : ¬ ClosedAt st n := by
      intro hc
      rw [ClosedAt] at hc
      rw [hc] at hcl
      cases hcl
    have hnne : ∀ c, ClosedAt st c → n ≠ c := by
      intro c hc heq
      exact hnotcl (heq ▸ hc)
    have hncur : n ≠ cur := hnne cur hcurCl
    have hnstart : n ≠ start := hnne start inv.closedStart
    have hadj : Adjacent8 cur n := by
      refine ⟨hdc, hdr, hncur⟩
    -- index disequality against any in-bounds cell distinct from n
    have hidx : ∀ c : Cell, InBounds c → n ≠ c → Index n ≠ Index c := by
      intro c hc hne heq
      exact hne (index_inj hn hc heq)
    -- lookups in the new table
    have hget_self : ∀ c : Cell, Index c = Index n →
        getV nodes' c = some (Node.mk (dist cur n) (dist n goal + Cost (map n)) n cur) := by
      intro c hc
      rw [getV_index_congr nodes' hc]
      exact getV_setV_self hset
    have hget_other : ∀ c : Cell, Index n ≠ Index c → getV nodes' c = getV st.tileNodes c :=
      fun c hne => getV_setV_ne hset hne
    have hwnew : nd ≠ initNode →
        Node.mk (dist cur n) (dist n goal + Cost (map n)) n cur ≠ initNode :=
      fun _ => writtenNode_ne_init hn
    -- WrittenAt is preserved and holds at n in the new state
    have hWn : WrittenAt ⟨nodes', st.closedList,
        st.openList ++
          [Node.mk (dist cur n) (dist n goal + Cost (map n)) n cellDefault]⟩ n :=
      ⟨_, hget_self n rfl, writtenNode_ne_init hn⟩
    have hWpres : ∀ c, WrittenAt st c → WrittenAt ⟨nodes', st.closedList,
        st.openList ++
          [Node.mk (dist cur n) (dist n goal + Cost (map n)) n cellDefault]⟩ c := by
      intro c hw
      by_cases hic : Index n = Index c
      · exact ⟨_, hget_self c hic.symm, writtenNode_ne_init hn⟩
      · obtain ⟨ndc, hndc, hne⟩ := hw
        exact ⟨ndc, by rw [hget_other c hic]; exact hndc, hne⟩
    refine ⟨inv.startIn, ?_, inv.lenC, inv.closedStart, ?_, ?_, ?_, ?_, ?_, ?_⟩
    · -- node-table length
      rw [setV_length hset]
      exact inv.lenN
    · -- sentinel: start's entry untouched
      obtain ⟨nds, hnds, hp⟩ := inv.sentinel
      exact ⟨nds, by rw [hget_other start (hidx start inv.startIn hnstart)]; exact hnds, hp⟩
    · -- open cells in bounds
      intro m hm
      rcases List.mem_append.mp hm with hm' | hm'
      · exact inv.openIn m hm'
      · rcases List.mem_singleton.mp hm' with rfl
        exact hn
    · -- open cells written (or the start)
      intro m hm
      rcases List.mem_append.mp hm with hm' | hm'
      · rcases inv.openW m hm' with hs | hw
        · exact Or.inl hs
        · exact Or.inr (hWpres _ hw)
      · rcases List.mem_singleton.mp hm' with rfl
        exact Or.inr hWn
    · -- closed cells written (or the start)
      intro c hc hcc
      rcases inv.closedW c hc hcc with hs | hw
      · exact Or.inl hs
      · exact Or.inr (hWpres _ hw)
    · -- written-node properties
      intro c hc hcs ndc hndc hne
      by_cases hic : Index c = Index n
      · -- c is the relaxed neighbour itself
        have hcn : c = n := index_inj hc hn hic
        subst hcn
        rw [hget_self c rfl] at hndc
        cases hndc
        refine ⟨rfl, hcurIn, hadj, hcurCl, ?_⟩
        rcases inv.closedW cur hcurIn hcurCl with hs | hw
        · exact Or.inl hs
        · exact Or.inr (hWpres _ hw)
      · -- an older entry, untouched
        rw [hget_other c (fun he => hic he.symm)] at hndc
        obtain ⟨hcell, hpIn, hadj', hpCl, hpW⟩ := inv.written c hc hcs ndc hndc hne
        refine ⟨hcell, hpIn, hadj', hpCl, ?_⟩
        rcases hpW with hs | hw
        · exact Or.inl hs
        · exact Or.inr (hWpres _ hw)
    · -- rank: bump the relaxed neighbour above its (closed) parent
      obtain ⟨rank, hrank⟩ := inv.rankEx
      refine ⟨fun c => if c = n then rank cur + 1 else rank c, ?_⟩
      intro c hc hcs ndc hndc hne
      by_cases hic : Index c = Index n
      · have hcn : c = n := index_inj hc hn hic
        subst hcn
        rw [hget_self c rfl] at hndc
        cases hndc
        show (if cur = c then rank cur + 1 else rank cur) <
          (if c = c then rank cur + 1 else rank c)
        rw [if_neg (show ¬ cur = c from fun he => hncur he.symm), if_pos rfl]
        omega
      · rw [hget_other c (fun he => hic he.symm)] at hndc
        have hcnn : c ≠ n := fun he => hic (he ▸ rfl)
        obtain ⟨_, _, _, hpCl, _⟩ := inv.written c hc hcs ndc hndc hne
        have hpn : ndc.parent ≠ n := fun he => hnotcl (he ▸ hpCl)
        simp only [if_neg hpn, if_neg hcnn]
        exact hrank c hc hcs ndc hndc hne

theorem setTrue_pres {l l' : List Bool} {c c' : Cell}
    (hset : setV l c true = some l') (h : getV l c' = some true) :
    getV l' c' = some true := by
  by_cases hic : Index c = Index c'
  · rw [← getV_index_congr l' hic]
    exact getV_setV_self hset
  · rw [getV_setV_ne hset hic]
    exact h

/-- `relaxList` preserves the invariant, given that the relaxing cell is
closed and every processed neighbour is in bounds and within one step. -/
theorem relaxList_pres {start : Cell} {dist : Cell → Cell → Dyadic} {map : Map}
    {goal cur : Cell} :
    ∀ (ns : List Cell) (st st' : SearchState),
      Inv start st → InBounds cur → ClosedAt st cur →
      (∀ n ∈ ns, InBounds n ∧
        (n.col - cur.col = -1 ∨ n.col - cur.col = 0 ∨ n.col - cur.col = 1) ∧
        (n.row - cur.row = -1 ∨ n.row - cur.row = 0 ∨ n.row - cur.row = 1)) →
      relaxList dist map goal cur ns st = some st' →
      Inv start st' ∧ st'.closedList = st.closedList := by
  intro ns
  induction ns with
  | nil =>
    intro st st' inv _ _ _ h
    cases h
    exact ⟨inv, rfl⟩
  | cons n ns ih =>
    intro st st' inv hcurIn hcurCl hns h
    unfold relaxList at h
    split at h
    · cases h
    next st1 hst1 =>
      obtain ⟨hnIn, hdc, hdr⟩ := hns n (List.mem_cons_self ..)
      obtain ⟨inv1, hcl1⟩ := relax_pres inv hcurIn hcurCl hnIn hdc hdr hst1
      have hcurCl1 : ClosedAt st1 cur := by
        unfold ClosedAt
        rw [hcl1]
        exact hcurCl
      obtain ⟨inv', hcl'⟩ :=
        ih st1 st' inv1 hcurIn hcurCl1 (fun m hm => hns m (List.mem_cons_of_mem _ hm)) h
      exact ⟨inv', by rw [hcl', hcl1]⟩

/-- If a loop iteration ends the loop (`Sum.inr`), the state is returned
unchanged, and this happens exactly when the open list is empty or the
minimal-`F` entry is the goal. -/
theorem loopStep_inr_cases {dist : Cell → Cell → Dyadic} {map : Map}
    {goal : Cell} {st st' : SearchState}
    (h : loopStep dist map goal st = some (Sum.inr st')) :
    st' = st ∧ (st.openList = [] ∨
      ∃ cur rest, popMin st.openList = some (cur, rest) ∧ cur.cell = goal) := by
  unfold loopStep at h
  split at h
  next hpop =>
    cases h
    exact ⟨rfl, Or.inl ((popMin_none_iff _).mp hpop)⟩
  next cur rest hpop =>
    split at h
    next hgoal =>
      cases h
      exact ⟨rfl, Or.inr ⟨cur, rest, hpop, hgoal⟩⟩
    next =>
      split at h
      · cases h
      · split at h
        · cases h
        · cases h

/-- If a loop iteration continues (`Sum.inl`), the invariant carries over. -/
theorem loopStep_inl_pres {start : Cell} {dist : Cell → Cell → Dyadic}
    {map : Map} {goal : Cell} {st st2 : SearchState}
    (inv : Inv start st) (h : loopStep dist map goal st = some (Sum.inl st2)) :
    Inv start st2 := by
  unfold loopStep at h
  split at h
  · cases h
  next cur rest hpop =>
    split at h
    · cases h
    next hgoal =>
      split at h
      · cases h
      next cls hcls =>
        split at h
        · cases h
        next st3 hrelax =>
          cases h
          -- the intermediate state with `cur` closed and popped
          have hcurMem := popMin_fst_mem hpop
          have hcurIn : InBounds cur.cell := inv.openIn cur hcurMem
          have hclosed_self : getV cls cur.cell = some true := getV_setV_self hcls
          have inv1 : Inv start ⟨st.tileNodes, cls, rest⟩ := by
            refine ⟨inv.startIn, inv.lenN, ?_, ?_, inv.sentinel, ?_, ?_, ?_, ?_, ?_⟩
            · rw [setV_length hcls]
              exact inv.lenC
            · exact setTrue_pres hcls inv.closedStart
            · exact fun m hm => inv.openIn m (popMin_rest_subset hpop m hm)
            · exact fun m hm => inv.openW m (popMin_rest_subset hpop m hm)
            · intro c hc hcc
              by_cases hic : Index cur.cell = Index c
              · have : cur.cell = c := index_inj hcurIn hc hic
                subst this
                exact inv.openW cur hcurMem
              · rw [show ClosedAt ⟨st.tileNodes, cls, rest⟩ c = (getV cls c = some true)
                    from rfl, getV_setV_ne hcls hic] at hcc
                exact inv.closedW c hc hcc
            · intro c hc hcs nd hnd hne
              obtain ⟨hcell, hpIn, hadj, hpCl, hpW⟩ := inv.written c hc hcs nd hnd hne
              exact ⟨hcell, hpIn, hadj, setTrue_pres hcls hpCl, hpW⟩
            · exact inv.rankEx
          have hClosed1 : ClosedAt ⟨st.tileNodes, cls, rest⟩ cur.cell := hclosed_self
          refine (relaxList_pres (Neighbours cur.cell) _ _ inv1 hcurIn hClosed1 ?_ hrelax).1
          intro m hm
          exact mem_neighbours hm

/-- The invariant is an invariant of the whole loop. -/
theorem loop_inv {start : Cell} {dist : Cell → Cell → Dyadic} {map : Map}
    {goal : Cell} :
    ∀ (fuel : Nat) (st st' : SearchState), Inv start st →
      loop dist map goal fuel st = some st' → Inv start st' := by
  intro fuel
  induction fuel with
  | zero =>
    intro st st' _ h
    cases h
  | succ f ih =>
    intro st st' inv h
    unfold loop at h
    split at h
    · cases h
    next hstep =>
      cases h
      obtain ⟨rfl, _⟩ := loopStep_inr_cases hstep
      exact inv
    next hstep =>
      exact ih _ _ (loopStep_inl_pres inv hstep) h

/-- For an in-bounds start, `initState` succeeds and produces the expected
tables: fresh nodes with only the start parent-sentinel written, an all-false
closed list, and `start` alone in the open list. -/
theorem initState_char {start : Cell} (hs : InBounds start) :
    ∃ nodes1, setV (List.replicate nodeCount initNode) start
        { initNode with parent := start } = some nodes1 ∧
      initState start =
        some ⟨nodes1, List.replicate nodeCount false, [Node.mk 0 0 start cellDefault]⟩ := by
  obtain ⟨nodes1, h1⟩ := @setV_some Node (List.replicate nodeCount initNode) start
    { initNode with parent := start } (List.length_replicate ..) hs
  refine ⟨nodes1, h1, ?_⟩
  unfold initState
  simp only [getV_replicate initNode hs, h1]

/-- After the very first loop iteration closes `start` (before any
relaxation has happened), the invariant holds. -/
theorem inv_after_first_close {start : Cell} {nodes1 : List Node} {cls : List Bool}
    (hs : InBounds start)
    (hset : setV (List.replicate nodeCount initNode) start
      { initNode with parent := start } = some nodes1)
    (hcls : setV (List.replicate nodeCount false) start true = some cls) :
    Inv start ⟨nodes1, cls, []⟩ := by
  have hnodes_other : ∀ c : Cell, InBounds c → c ≠ start → getV nodes1 c = some initNode := by
    intro c hc hcs
    have hidx : Index start ≠ Index c := fun he => hcs (index_inj hc hs he.symm)
    rw [getV_setV_ne hset hidx]
    exact getV_replicate initNode hc
  refine ⟨hs, ?_, ?_, ?_, ?_, ?_, ?_, ?_, ?_, ?_⟩
  · rw [setV_length hset]
    exact List.length_replicate ..
  · rw [setV_length hcls]
    exact List.length_replicate ..
  · exact getV_setV_self hcls
  · exact ⟨_, getV_setV_self hset, rfl⟩
  · intro m hm
    simp at hm
  · intro m hm
    simp at hm
  · intro c hc hcc
    by_cases hic : Index start = Index c
    · exact Or.inl (index_inj hc hs hic.symm)
    · exfalso
      have hcc' : getV cls c = some true := hcc
      rw [getV_setV_ne hcls hic, getV_replicate false hc] at hcc'
      cases hcc'
  · intro c hc hcs nd hnd hne
    exfalso
    have hnd' : getV nodes1 c = some nd := hnd
    rw [hnodes_other c hc hcs] at hnd'
    cases hnd'
    exact hne rfl
  · refine ⟨fun _ => 0, ?_⟩
    intro c hc hcs nd hnd hne
    exfalso
    have hnd' : getV nodes1 c = some nd := hnd
    rw [hnodes_other c hc hcs] at hnd'
    cases hnd'
    exact hne rfl

/-- Any successful run of the loop from the initial state either broke
immediately because `start = goal`, or reaches a state satisfying the
invariant. -/
theorem loop_from_init {start goal : Cell} {dist : Cell → Cell → Dyadic}
    {map : Map} {fuel : Nat} {st0 st' : SearchState}
    (hs : InBounds start) (hinit : initState start = some st0)
    (h : loop dist map goal fuel st0 = some st') :
    (start = goal ∧ st' = st0) ∨ Inv start st' := by
  obtain ⟨nodes1, hset, hchar⟩ := initState_char hs
  rw [hinit] at hchar
  injection hchar with hst0
  subst hst0
  have hx : popMin [Node.mk 0 0 start cellDefault] =
      some (Node.mk 0 0 start cellDefault, []) := rfl
  cases fuel with
  | zero => cases h
  | succ f =>
    unfold loop at h
    split at h
    · cases h
    next hstep =>
      cases h
      obtain ⟨rfl, hend⟩ := loopStep_inr_cases hstep
      rcases hend with hemp | ⟨cur, rest, hpop, hgoal⟩
      · simp at hemp
      · rw [hx] at hpop
        injection hpop with hp
        have hcur : Node.mk 0 0 start cellDefault = cur := congrArg Prod.fst hp
        left
        refine ⟨?_, rfl⟩
        rw [← hcur] at hgoal
        exact hgoal
    next st2 hstep =>
      unfold loopStep at hstep
      split at hstep
      · simp at hstep
      next cur rest hpop =>
        split at hstep
        next => simp at hstep
        next hgoal =>
          have hpop' : popMin [Node.mk 0 0 start cellDefault] = some (cur, rest) := hpop
          rw [hx] at hpop'
          injection hpop' with hp
          have hcur : Node.mk 0 0 start cellDefault = cur := congrArg Prod.fst hp
          have hrest : ([] : List Node) = rest := congrArg Prod.snd hp
          split at hstep
          · cases hstep
          next cls hcls =>
            split at hstep
            · cases hstep
            next st3 hrelax =>
              cases hstep
              have hcls' : setV (List.replicate nodeCount false) start true = some cls := by
                have h' : setV (List.replicate nodeCount false) cur.cell true = some cls := hcls
                rw [← hcur] at h'
                exact h'
              have inv1 := inv_after_first_close hs hset hcls'
              have hrelax' : relaxList dist map goal start (Neighbours start)
                  ⟨nodes1, cls, []⟩ = some st2 := by
                rw [← hcur, ← hrest] at hrelax
                exact hrelax
              have hcl1 : ClosedAt ⟨nodes1, cls, []⟩ start := getV_setV_self hcls'
              have hinv3 := relaxList_pres (Neighbours start) _ _ inv1 hs hcl1
                (fun m hm => mem_neighbours hm) hrelax'
              exact Or.inr (loop_inv f st2 st' hinv3.1 h)

/-! ### Path reconstruction -/

/-- The source's accumulator loop is the spec's walk followed by appending
`start` and reversing (§4.5 of the spec). -/
theorem reconstruct_eq_specWalk (nodes : List Node) (start : Cell) :
    ∀ (fuel : Nat) (current : Cell) (path : List Cell),
      reconstruct nodes start fuel current path =
        (specWalk nodes fuel current).map
          (fun chain => List.reverse ((path ++ chain) ++ [start])) := by
  intro fuel
  induction fuel with
  | zero => intro current path; rfl
  | succ f ih =>
    intro current path
    unfold reconstruct specWalk
    cases hget : getV nodes current with
    | none => rfl
    | some nd =>
      dsimp only
      by_cases hp : nd.parent = current
      · rw [if_pos hp, if_pos hp]
        simp
      · rw [if_neg hp, if_neg hp]
        rw [ih nd.parent (path ++ [current])]
        cases specWalk nodes f nd.parent with
        | none => rfl
        | some rest => simp

/-- Under the invariant, a successful spec walk from an in-bounds cell ends
exactly at `start`, and prefixing `start` to its reverse yields an
8-adjacent chain from `start` to the walked-from cell. -/
theorem specWalk_shape {start : Cell} {st : SearchState} (inv : Inv start st) :
    ∀ (fuel : Nat) (c : Cell) (chain : List Cell), InBounds c →
      specWalk st.tileNodes fuel c = some chain →
      List.Chain' Adjacent8 (start :: chain.reverse) ∧
        (start :: chain.reverse).getLast? = some c := by
  intro fuel
  induction fuel with
  | zero =>
    intro c chain _ h
    cases h
  | succ f ih =>
    intro c chain hc h
    unfold specWalk at h
    split at h
    · cases h
    next nd hget =>
      split at h
      next hp =>
        cases h
        have hcs : c = start := by
          by_contra hne
          by_cases hinit : nd = initNode
          · subst hinit
            have hcol : c.col = -1 := by rw [← hp]; rfl
            rcases hc with ⟨h1, _⟩
            omega
          · obtain ⟨_, _, hadj, _, _⟩ := inv.written c hc hne nd hget hinit
            exact hadj.2.2 hp.symm
        subst hcs
        exact ⟨List.chain'_singleton _, rfl⟩
      next hp =>
        split at h
        · cases h
        next rest hrest =>
          cases h
          by_cases hinit : nd = initNode
          · exfalso
            subst hinit
            have hnone : getV st.tileNodes initNode.parent = none := by
              show getV st.tileNodes cellDefault = none
              unfold getV
              rw [if_neg (by decide)]
            cases f with
            | zero => cases hrest
            | succ f' =>
              unfold specWalk at hrest
              rw [hnone] at hrest
              cases hrest
          · have hcs : c ≠ start := by
              intro he
              subst he
              obtain ⟨nds, hnds, hpar⟩ := inv.sentinel
              rw [hget] at hnds
              injection hnds with hnd2
              rw [hnd2] at hp
              exact hp hpar
            obtain ⟨hcell, hpIn, hadj, hpCl, hpW⟩ := inv.written c hc hcs nd hget hinit
            obtain ⟨ihchain, ihlast⟩ := ih nd.parent rest hpIn hrest
            have hsplit : (start :: (c :: rest).reverse) = (start :: rest.reverse) ++ [c] := by
              simp
            constructor
            · rw [hsplit, List.chain'_append]
              refine ⟨ihchain, List.chain'_singleton _, ?_⟩
              intro x hx y hy
              rw [ihlast] at hx
              simp only [Option.mem_def, Option.some.injEq] at hx
              simp only [List.head?_cons, Option.mem_def, Option.some.injEq] at hy
              rw [← hx, ← hy] at *
              exact hx ▸ hy ▸ hadj
            · rw [hsplit]
              exact List.getLast?_concat ..

/-- Under the invariant, the parent walk from any written cell (or from
`start`) terminates: the existential rank strictly decreases along parent
links. -/
theorem specWalk_total {start : Cell} {st : SearchState} (inv : Inv start st)
    {g : Cell} (hg : InBounds g) (hw : g = start ∨ WrittenAt st g) :
    ∃ fuel chain, specWalk st.tileNodes fuel g = some chain := by
  obtain ⟨rank, hrank⟩ := inv.rankEx
  suffices h : ∀ r c, InBounds c → (c = start ∨ WrittenAt st c) → rank c ≤ r →
      ∃ fuel chain, specWalk st.tileNodes fuel c = some chain from
    h (rank g) g hg hw (Nat.le_refl _)
  intro r
  induction r with
  | zero =>
    intro c hc hcw _
    by_cases hcs : c = start
    · subst hcs
      obtain ⟨nds, hnds, hpar⟩ := inv.sentinel
      exact ⟨0 + 1, [], by simp only [specWalk, hnds, if_pos hpar]⟩
    · exfalso
      rcases hcw with he | ⟨nd, hget, hne⟩
      · exact hcs he
      · exact absurd (hrank c hc hcs nd hget hne) (by omega)
  | succ r ih =>
    intro c hc hcw hr
    by_cases hcs : c = start
    · subst hcs
      obtain ⟨nds, hnds, hpar⟩ := inv.sentinel
      exact ⟨0 + 1, [], by simp only [specWalk, hnds, if_pos hpar]⟩
    · rcases hcw with he | ⟨nd, hget, hne⟩
      · exact absurd he hcs
      · obtain ⟨hcell, hpIn, hadj, hpCl, hpW⟩ := inv.written c hc hcs nd hget hne
        have hrankp : rank nd.parent ≤ r := by
          have := hrank c hc hcs nd hget hne
          omega
        obtain ⟨f, ch, hch⟩ := ih nd.parent hpIn
          (by rcases hpW with hs | hw'; exacts [Or.inl hs, Or.inr hw']) hrankp
        refine ⟨f + 1, c :: ch, ?_⟩
        simp only [specWalk, hget,
          if_neg (show ¬ nd.parent = c from fun he => hadj.2.2 he.symm), hch]

theorem setV_of_getV {α : Type} {l : List α} {c : Cell} {v : α}
    (h : getV l c = some v) (w : α) :
    setV l c w = some (l.set (Index c).toNat w) := by
  unfold getV at h
  split at h
  next hpos =>
    have hlen : (Index c).toNat < l.length := by
      by_contra hno
      rw [List.get?_eq_none.mpr (by omega)] at h
      cases h
    unfold setV
    rw [if_pos ⟨hpos, hlen⟩]
  next => cases h

/-! ### The claims -/

/-- C1: for every in-bounds start and goal on the 10×10 grid, if `FindPath`
returns a Route, then the Route's first element equals `start`, its last
element equals `goal`, and every pair of consecutive cells differs by one of
the 8 adjacency offsets (both coordinate deltas in `{-1, 0, 1}`, not both
zero). -/
theorem C1_route_shape {dist : Cell → Cell → Dyadic} {map : Map}
    {start goal : Cell} {fuel : Nat} {route : List Cell}
    (hs : InBounds start) (hg : InBounds goal)
    (h : FindPath dist start goal map fuel = some route) :
    route.head? = some start ∧ route.getLast? = some goal ∧
      List.Chain' Adjacent8 route := by
  unfold FindPath at h
  split at h
  · cases h
  next st0 hinit =>
    split at h
    · cases h
    next st hloop =>
      rw [reconstruct_eq_specWalk] at h
      cases hwalk : specWalk st.tileNodes fuel goal with
      | none =>
        rw [hwalk] at h
        cases h
      | some chain =>
        rw [hwalk] at h
        have hroute : route = start :: chain.reverse := by
          injection h with h'
          rw [← h']
          simp
        subst hroute
        rcases loop_from_init hs hinit hloop with ⟨hsg, rfl⟩ | inv
        · subst hsg
          obtain ⟨nodes1, hset, hchar⟩ := initState_char hs
          rw [hinit] at hchar
          injection hchar with hst0
          subst hst0
          have hgv : getV nodes1 start = some { initNode with parent := start } :=
            getV_setV_self hset
          cases fuel with
          | zero => cases hwalk
          | succ f =>
            have hwalk' : specWalk nodes1 (f + 1) start = some chain := hwalk
            simp only [specWalk, hgv, if_pos rfl] at hwalk'
            injection hwalk' with hchain
            rw [← hchain]
            exact ⟨rfl, rfl, List.chain'_singleton _⟩
        · obtain ⟨hchain, hlast⟩ := specWalk_shape inv fuel goal chain hg hwalk
          exact ⟨rfl, hlast, hchain⟩

/-- Witness for C1 at a concrete run (`start = goal = (3,4)` on the open
grid with the Manhattan heuristic). -/
theorem C1_route_shape_witness :
    ([(⟨3, 4⟩ : Cell)] : List Cell).head? = some ⟨3, 4⟩ ∧
      ([(⟨3, 4⟩ : Cell)] : List Cell).getLast? = some ⟨3, 4⟩ ∧
      List.Chain' Adjacent8 [(⟨3, 4⟩ : Cell)] :=
  @C1_route_shape Manhattan airMap ⟨3, 4⟩ ⟨3, 4⟩ 1 [⟨3, 4⟩]
    (by decide) (by decide) (by decide)

/-- C5: whenever the search relaxes a neighbour `n` of the current cell, the
values written into `n`'s node are `gNew = dist cur n` (a single-step
estimate, not accumulated along the path) and
`hNew = dist n goal + Cost (map n)`, and the write (together with the open
push) happens exactly when the stored `F` is at most `FLT_EPSILON`
(unvisited) or `gNew + hNew` is strictly below the stored `F`. -/
theorem C5_relaxation (dist : Cell → Cell → Dyadic) (map : Map)
    (goal cur n : Cell) (st : SearchState) (nd : Node)
    (hcl : getV st.closedList n = some false)
    (hnd : getV st.tileNodes n = some nd) :
    ((nd.F ≤ FLT_EPSILON ∨ dist cur n + (dist n goal + Cost (map n)) < nd.F) →
      relax dist map goal cur st n =
        some ⟨st.tileNodes.set (Index n).toNat
            (Node.mk (dist cur n) (dist n goal + Cost (map n)) n cur),
          st.closedList,
          st.openList ++
            [Node.mk (dist cur n) (dist n goal + Cost (map n)) n cellDefault]⟩) ∧
    (¬(nd.F ≤ FLT_EPSILON ∨ dist cur n + (dist n goal + Cost (map n)) < nd.F) →
      relax dist map goal cur st n = some st) := by
  constructor
  · intro hcond
    unfold relax
    rw [hcl]
    dsimp only
    rw [hnd]
    dsimp only
    rw [if_pos hcond, setV_of_getV hnd]
  · intro hcond
    unfold relax
    rw [hcl]
    dsimp only
    rw [hnd]
    dsimp only
    rw [if_neg hcond]

/-- Witness for C5: relaxing the unvisited cell `(0,0)` on a one-cell table
writes exactly the claimed `g`/`h`/parent and pushes the claimed entry. -/
theorem C5_relaxation_witness :
    relax Manhattan airMap ⟨1, 0⟩ ⟨5, 5⟩ ⟨[initNode], [false], []⟩ ⟨0, 0⟩ =
      some ⟨[Node.mk (Manhattan ⟨5, 5⟩ ⟨0, 0⟩)
            (Manhattan ⟨0, 0⟩ ⟨1, 0⟩ + Cost (airMap ⟨0, 0⟩)) ⟨0, 0⟩ ⟨5, 5⟩],
        [false],
        [Node.mk (Manhattan ⟨5, 5⟩ ⟨0, 0⟩)
            (Manhattan ⟨0, 0⟩ ⟨1, 0⟩ + Cost (airMap ⟨0, 0⟩)) ⟨0, 0⟩ cellDefault]⟩ :=
  (C5_relaxation Manhattan airMap ⟨1, 0⟩ ⟨5, 5⟩ ⟨0, 0⟩ ⟨[initNode], [false], []⟩
    initNode (by decide) (by decide)).1 (by decide)

/-- C6: if `start = goal` (in bounds), `FindPath` returns the single-cell
Route `[start]` — the loop breaks on the first peek and the reconstruction
stops at the start sentinel immediately. -/
theorem C6_trivial_path (dist : Cell → Cell → Dyadic) (map : Map) (s : Cell)
    (fuel : Nat) (hs : InBounds s) :
    FindPath dist s s map (fuel + 1) = some [s] := by
  obtain ⟨nodes1, hset, hchar⟩ := initState_char hs
  unfold FindPath
  rw [hchar]
  dsimp only
  have hstep : loopStep dist map s
      ⟨nodes1, List.replicate nodeCount false, [Node.mk 0 0 s cellDefault]⟩ =
      some (Sum.inr ⟨nodes1, List.replicate nodeCount false,
        [Node.mk 0 0 s cellDefault]⟩) := by
    unfold loopStep
    rw [show popMin [Node.mk 0 0 s cellDefault] =
      some (Node.mk 0 0 s cellDefault, []) from rfl]
    dsimp only
    rw [if_pos rfl]
  have hloop : loop dist map s (fuel + 1)
      ⟨nodes1, List.replicate nodeCount false, [Node.mk 0 0 s cellDefault]⟩ =
      some ⟨nodes1, List.replicate nodeCount false, [Node.mk 0 0 s cellDefault]⟩ := by
    unfold loop
    rw [hstep]
  rw [hloop]
  dsimp only
  have hgv : getV nodes1 s = some { initNode with parent := s } := getV_setV_self hset
  unfold reconstruct
  rw [hgv]
  dsimp only
  rw [if_pos rfl]
  rfl

/-- Witness for C6 at `s = (3,3)`. -/
theorem C6_trivial_path_witness :
    FindPath Manhattan ⟨3, 3⟩ ⟨3, 3⟩ airMap (0 + 1) = some [⟨3, 3⟩] :=
  C6_trivial_path Manhattan airMap ⟨3, 3⟩ 0 (by decide)

/-- C7: the cell examined by each loop iteration carries a minimal `F` among
all open entries; if that minimal entry is the goal the loop ends at once
with the state unchanged (nothing is popped or closed); and the loop ends in
no other way except an empty open list. -/
theorem C7_frontier_min (dist : Cell → Cell → Dyadic) (map : Map)
    (goal : Cell) (st : SearchState) :
    (st.openList = [] → loopStep dist map goal st = some (Sum.inr st)) ∧
    (∀ cur rest, popMin st.openList = some (cur, rest) →
      (∀ m ∈ st.openList, cur.F ≤ m.F) ∧
      (cur.cell = goal → loopStep dist map goal st = some (Sum.inr st))) ∧
    (∀ st', loopStep dist map goal st = some (Sum.inr st') →
      st' = st ∧ (st.openList = [] ∨
        ∃ cur rest, popMin st.openList = some (cur, rest) ∧ cur.cell = goal)) := by
  refine ⟨?_, ?_, ?_⟩
  · intro hemp
    unfold loopStep
    rw [(popMin_none_iff _).mpr hemp]
  · intro cur rest hpop
    refine ⟨popMin_fst_min hpop, ?_⟩
    intro hgoal
    unfold loopStep
    rw [hpop]
    dsimp only
    rw [if_pos hgoal]
  · intro st' hstep
    exact loopStep_inr_cases hstep

/-- Witness for C7: on a frontier holding entries of `F`-scores 5 and 3, the
examined entry is the one of score 3, and peeking the goal ends the loop
with the state untouched. -/
theorem C7_frontier_min_witness :
    (∀ m ∈ [Node.mk 5 0 ⟨1, 1⟩ cellDefault, Node.mk 3 0 ⟨2, 2⟩ cellDefault],
      (Node.mk 3 0 ⟨2, 2⟩ cellDefault).F ≤ m.F) ∧
    loopStep Manhattan airMap ⟨2, 2⟩
        ⟨[], [], [Node.mk 5 0 ⟨1, 1⟩ cellDefault, Node.mk 3 0 ⟨2, 2⟩ cellDefault]⟩ =
      some (Sum.inr ⟨[], [],
        [Node.mk 5 0 ⟨1, 1⟩ cellDefault, Node.mk 3 0 ⟨2, 2⟩ cellDefault]⟩) := by
  have h := (C7_frontier_min Manhattan airMap ⟨2, 2⟩
    ⟨[], [], [Node.mk 5 0 ⟨1, 1⟩ cellDefault, Node.mk 3 0 ⟨2, 2⟩ cellDefault]⟩).2.1
    (Node.mk 3 0 ⟨2, 2⟩ cellDefault) [Node.mk 5 0 ⟨1, 1⟩ cellDefault] (by decide)
  exact ⟨h.1, h.2 rfl⟩

/-- C8: the start node's parent is set to `start` before the search and
remains so at every state the loop can return, serving as the sole
termination sentinel; and the source's reconstruction loop is exactly the
spec's walk (append the current cell and follow `parent` until a self-parent
cell) followed by appending `start` and reversing. -/
theorem C8_reconstruction :
    (∀ (start : Cell) (st0 : SearchState), InBounds start →
      initState start = some st0 →
      ∃ nd, getV st0.tileNodes start = some nd ∧ nd.parent = start) ∧
    (∀ (dist : Cell → Cell → Dyadic) (map : Map) (start goal : Cell) (fuel : Nat)
      (st0 st : SearchState), InBounds start → initState start = some st0 →
      loop dist map goal fuel st0 = some st →
      ∃ nd, getV st.tileNodes start = some nd ∧ nd.parent = start) ∧
    (∀ (nodes : List Node) (start : Cell) (fuel : Nat) (current : Cell)
      (path : List Cell),
      reconstruct nodes start fuel current path =
        (specWalk nodes fuel current).map
          (fun chain => List.reverse ((path ++ chain) ++ [start]))) := by
  refine ⟨?_, ?_, reconstruct_eq_specWalk⟩
  · intro start st0 hs hinit
    obtain ⟨nodes1, hset, hchar⟩ := initState_char hs
    rw [hinit] at hchar
    injection hchar with hst0
    subst hst0
    exact ⟨_, getV_setV_self hset, rfl⟩
  · intro dist map start goal fuel st0 st hs hinit hloop
    rcases loop_from_init hs hinit hloop with ⟨hsg, rfl⟩ | inv
    · obtain ⟨nodes1, hset, hchar⟩ := initState_char hs
      rw [hinit] at hchar
      injection hchar with hst0
      subst hst0
      exact ⟨_, getV_setV_self hset, rfl⟩
    · exact inv.sentinel

/-- Witness for C8: the sentinel after a one-iteration run from `(4,4)`, and
the walk equivalence on a concrete table. -/
theorem C8_reconstruction_witness :
    (∃ nd, getV ((List.replicate nodeCount initNode).set 44
        { initNode with parent := (⟨4, 4⟩ : Cell) }) ⟨4, 4⟩ = some nd ∧
      nd.parent = ⟨4, 4⟩) ∧
    reconstruct [Node.mk 0 0 ⟨0, 0⟩ ⟨0, 0⟩] ⟨0, 0⟩ 3 ⟨0, 0⟩ [] =
      (specWalk [Node.mk 0 0 ⟨0, 0⟩ ⟨0, 0⟩] 3 ⟨0, 0⟩).map
        (fun chain => List.reverse (([] ++ chain) ++ [(⟨0, 0⟩ : Cell)])) := by
  constructor
  · exact (C8_reconstruction.1 ⟨4, 4⟩
      ⟨(List.replicate nodeCount initNode).set 44
          { initNode with parent := (⟨4, 4⟩ : Cell) },
        List.replicate nodeCount false, [Node.mk 0 0 ⟨4, 4⟩ cellDefault]⟩
      (by decide) (by decide))
  · exact C8_reconstruction.2.2 [Node.mk 0 0 ⟨0, 0⟩ ⟨0, 0⟩] ⟨0, 0⟩ 3 ⟨0, 0⟩ []

/-- C10: for every search whose final state has the goal's node written (or
`goal = start`), the stored parent pointers are acyclic along the walk from
the goal, so the source's reconstruction loop terminates after finitely many
steps with some route, indexing only in-bounds cells (an out-of-bounds index
would surface as `none`). -/
theorem C10_walk_terminates {dist : Cell → Cell → Dyadic} {map : Map}
    {start goal : Cell} {fuel : Nat} {st0 st : SearchState}
    (hs : InBounds start) (hg : InBounds goal)
    (hinit : initState start = some st0)
    (hloop : loop dist map goal fuel st0 = some st)
    (hw : WrittenAt st goal ∨ goal = start) :
    ∃ fuel2 route, reconstruct st.tileNodes start fuel2 goal [] = some route := by
  have hwalk : ∃ fuel2 chain, specWalk st.tileNodes fuel2 goal = some chain := by
    rcases loop_from_init hs hinit hloop with ⟨hsg, rfl⟩ | inv
    · subst hsg
      obtain ⟨nodes1, hset, hchar⟩ := initState_char hs
      rw [hinit] at hchar
      injection hchar with hst0
      subst hst0
      have hgv : getV nodes1 start = some { initNode with parent := start } :=
        getV_setV_self hset
      exact ⟨0 + 1, [], by simp [specWalk, hgv]⟩
    · refine specWalk_total inv hg ?_
      rcases hw with hww | he
      · exact Or.inr hww
      · exact Or.inl he
  obtain ⟨fuel2, chain, hchain⟩ := hwalk
  refine ⟨fuel2, List.reverse (([] ++ chain) ++ [start]), ?_⟩
  rw [reconstruct_eq_specWalk, hchain]
  rfl

/-- C2 (evaluating the code at the failing inputs): `Neighbours`' skip guard
compares the loop offsets against the cell's absolute coordinates, so for
cell `(5,5)` the returned list has 9 entries and contains `(5,5)` itself,
and for cell `(1,1)` the true neighbour `(2,2)` is missing (the offset
`(1,1)` is the one skipped) while `(1,1)` itself is included. -/
theorem C2_neighbours_self :
    Neighbours ⟨5, 5⟩ =
      [⟨4, 4⟩, ⟨5, 4⟩, ⟨6, 4⟩, ⟨4, 5⟩, ⟨5, 5⟩, ⟨6, 5⟩, ⟨4, 6⟩, ⟨5, 6⟩, ⟨6, 6⟩] ∧
    (⟨5, 5⟩ : Cell) ∈ Neighbours ⟨5, 5⟩ ∧ (Neighbours ⟨5, 5⟩).length = 9 ∧
    Neighbours ⟨1, 1⟩ =
      [⟨0, 0⟩, ⟨1, 0⟩, ⟨2, 0⟩, ⟨0, 1⟩, ⟨1, 1⟩, ⟨2, 1⟩, ⟨0, 2⟩, ⟨1, 2⟩] ∧
    (⟨2, 2⟩ : Cell) ∉ Neighbours ⟨1, 1⟩ ∧ (⟨1, 1⟩ : Cell) ∈ Neighbours ⟨1, 1⟩ := by
  decide

set_option maxRecDepth 1000000 in
/-- C3 (evaluating the code at the failing input): with the out-of-bounds
goal `(10,5)` — `Index (10,5) = 60`, aliasing the node of cell `(0,6)` —
`FindPath` exhausts the frontier and then returns a 23-cell "Route" whose
last element is the out-of-bounds goal and whose final step `(0,5) → (10,5)`
is not even 8-adjacent; no `InvalidArgument` failure is reported. -/
theorem C3_oob_goal_route :
    ¬ InBounds ⟨10, 5⟩ ∧
    FindPath Manhattan ⟨1, 1⟩ ⟨10, 5⟩ airMap 400 =
      some [⟨1, 1⟩, ⟨2, 1⟩, ⟨3, 1⟩, ⟨4, 1⟩, ⟨5, 1⟩, ⟨6, 1⟩, ⟨7, 1⟩, ⟨8, 1⟩, ⟨9, 1⟩,
        ⟨9, 2⟩, ⟨9, 3⟩, ⟨9, 4⟩, ⟨9, 5⟩, ⟨8, 5⟩, ⟨7, 5⟩, ⟨6, 5⟩, ⟨5, 5⟩, ⟨4, 5⟩,
        ⟨3, 5⟩, ⟨2, 5⟩, ⟨1, 5⟩, ⟨0, 5⟩, ⟨10, 5⟩] ∧
    ¬ Adjacent8 ⟨0, 5⟩ ⟨10, 5⟩ := by
  refine ⟨by decide, by decide, by decide⟩

set_option maxRecDepth 1000000 in
/-- C4 (evaluating the code at the failing input): on the all-`AIR` 10×10
grid with the axis-sum heuristic, `FindPath (1,1) (8,8)` returns a 15-cell
L-shaped route along row 1 and column 8 — not the claimed 8-cell diagonal
(`max(|Δcol|, |Δrow|) + 1 = 8`); indeed `(2,2)` is not even reachable in one
step from `(1,1)` because of the `Neighbours` guard bug. -/
theorem C4_open_grid_route :
    FindPath Manhattan ⟨1, 1⟩ ⟨8, 8⟩ airMap 18 =
      some [⟨1, 1⟩, ⟨2, 1⟩, ⟨3, 1⟩, ⟨4, 1⟩, ⟨5, 1⟩, ⟨6, 1⟩, ⟨7, 1⟩, ⟨8, 1⟩,
        ⟨8, 2⟩, ⟨8, 3⟩, ⟨8, 4⟩, ⟨8, 5⟩, ⟨8, 6⟩, ⟨8, 7⟩, ⟨8, 8⟩] ∧
    ([⟨1, 1⟩, ⟨2, 1⟩, ⟨3, 1⟩, ⟨4, 1⟩, ⟨5, 1⟩, ⟨6, 1⟩, ⟨7, 1⟩, ⟨8, 1⟩,
        ⟨8, 2⟩, ⟨8, 3⟩, ⟨8, 4⟩, ⟨8, 5⟩, ⟨8, 6⟩, ⟨8, 7⟩, ⟨8, 8⟩] : List Cell).length =
      15 ∧
    FindPath Manhattan ⟨1, 1⟩ ⟨8, 8⟩ airMap 18 ≠
      some [⟨1, 1⟩, ⟨2, 2⟩, ⟨3, 3⟩, ⟨4, 4⟩, ⟨5, 5⟩, ⟨6, 6⟩, ⟨7, 7⟩, ⟨8, 8⟩] := by
  refine ⟨by decide, by decide, by decide⟩

/-- Witness for C10 at the trivial run `start = goal = (2,2)`. -/
theorem C10_walk_terminates_witness :
    ∃ fuel2 route, reconstruct ((List.replicate nodeCount initNode).set 22
        { initNode with parent := (⟨2, 2⟩ : Cell) }) ⟨2, 2⟩ fuel2 ⟨2, 2⟩ [] =
      some route :=
  @C10_walk_terminates Manhattan airMap ⟨2, 2⟩ ⟨2, 2⟩ 1
    ⟨(List.replicate nodeCount initNode).set 22
        { initNode with parent := (⟨2, 2⟩ : Cell) },
      List.replicate nodeCount false, [Node.mk 0 0 ⟨2, 2⟩ cellDefault]⟩
    ⟨(List.replicate nodeCount initNode).set 22
        { initNode with parent := (⟨2, 2⟩ : Cell) },
      List.replicate nodeCount false, [Node.mk 0 0 ⟨2, 2⟩ cellDefault]⟩
    (by decide) (by decide) (by decide) (by decide) (Or.inr rfl)

end Sunshine
